import Mathlib

/-!
Verification of the news-aggregation repository against its specification.

The visible repository (src/frontend) contains the display layer; the
ingestion-and-deduplication core described by the specification is not part
of the visible sources, so that core is modelled here from the spec's own
words (each such definition is marked "Modelled from the spec"). The
frontend definitions are translated directly from the TypeScript sources.
-/

set_option maxRecDepth 8000

namespace NewsSpec

/-! ## Frontend: article update DTO (claim C8) -/

namespace Frontend

/-- Article shape of the legacy hooks module (src/frontend/src/hooks/useNews.ts,
interface Article): snake_case API fields including the AI enrichment fields. -/
structure Article where
  id : String
  title : String
  content : Option String
  summary : Option String
  url : String
  source : String
  source_category : Option String
  published_at : String
  collected_at : String
  ai_quality_score : Option ℚ
  ai_category : Option String
  ai_keywords : Option (List String)
  ai_processed : Bool
  is_read : Bool
  is_starred : Bool
  is_filtered : Bool

/-- ArticleUpdate (src/frontend/src/types/index.ts): an update may carry only
the optional user-state fields isRead and isStarred. -/
structure ArticleUpdate where
  isRead : Option Bool
  isStarred : Option Bool

/-- ArticleUpdateDTO (src/frontend/src/types/index.ts): the wire shape of an
article update; it has exactly the two optional fields is_read and is_starred. -/
structure ArticleUpdateDTO where
  is_read : Option Bool
  is_starred : Option Bool

/-- mapArticleUpdateToDto (frontend serializers for the news API): camelCase
update to snake_case DTO, field for field. -/
def mapArticleUpdateToDto (u : ArticleUpdate) : ArticleUpdateDTO :=
  { is_read := u.isRead, is_starred := u.isStarred }

/-- Modelled from the spec: the backend PATCH handler behind updateArticle is
not part of the visible repository; per the spec the user-state fields are
"mutated later by external collaborators", so applying an update DTO merges
exactly the fields present in the DTO into the stored article and touches
nothing else. -/
def applyArticleUpdateDto (a : Article) (dto : ArticleUpdateDTO) : Article :=
  { a with
    is_read := dto.is_read.getD a.is_read,
    is_starred := dto.is_starred.getD a.is_starred }

/-! ## Frontend: relative-time formatting (claims C9, C10) -/

/-- JS Math.floor(a / b) on integer operands is floor division. -/
def jsFloorDiv (a b : Int) : Int := Int.fdiv a b

/-- JS String(n).padStart(2, '0'). -/
def padStart2 (s : String) : String :=
  if 2 ≤ s.length then s else if s.length = 1 then "0" ++ s else "00"

/-- Model of a JS Date as consumed by formatRelativeTime: the epoch value in
milliseconds (getTime) together with the local calendar fields getFullYear,
getMonth (0-based) and getDate. -/
structure JsDate where
  ms : Int
  fullYear : Int
  month0 : Nat
  date : Nat

/-- The YYYY-MM-DD rendering used by both formatRelativeTime copies:
year, zero-padded month (getMonth() + 1) and zero-padded day of month. -/
def ymdString (d : JsDate) : String :=
  toString d.fullYear ++ "-" ++ padStart2 (toString (d.month0 + 1)) ++ "-" ++
    padStart2 (toString d.date)

/-- formatRelativeTime from src/frontend/src/shared/utils/time.ts, with the
current clock (new Date().getTime()) passed explicitly. -/
def formatRelativeTimeShared (now : Int) (date : JsDate) : String :=
  let diffMs := now - date.ms
  let diffSeconds := jsFloorDiv diffMs 1000
  let diffMinutes := jsFloorDiv diffSeconds 60
  let diffHours := jsFloorDiv diffMinutes 60
  let diffDays := jsFloorDiv diffHours 24
  if diffMs < 0 then
    let absDiffMinutes := |diffMinutes|
    if absDiffMinutes ≤ 60 then "刚刚"
    else ymdString date
  else if diffMinutes < 1 then "刚刚"
  else if diffHours < 1 then toString diffMinutes ++ "分钟前"
  else if diffDays < 1 then toString diffHours ++ "小时前"
  else if diffDays < 30 then toString diffDays ++ "天前"
  else ymdString date

/-- The first formatRelativeTime definition in src/frontend/src/utils/time.ts
(lines 10-59), transcribed independently from that file; it carries the same
future-date comment block and the same branch structure. -/
def formatRelativeTimeUtils (now : Int) (date : JsDate) : String :=
  let diffMs := now - date.ms
  let diffSeconds := jsFloorDiv diffMs 1000
  let diffMinutes := jsFloorDiv diffSeconds 60
  let diffHours := jsFloorDiv diffMinutes 60
  let diffDays := jsFloorDiv diffHours 24
  if diffMs < 0 then
    let absDiffMinutes := |diffMinutes|
    if absDiffMinutes ≤ 60 then "刚刚"
    else ymdString date
  else if diffMinutes < 1 then "刚刚"
  else if diffHours < 1 then toString diffMinutes ++ "分钟前"
  else if diffDays < 1 then toString diffHours ++ "小时前"
  else if diffDays < 30 then toString diffDays ++ "天前"
  else ymdString date

end Frontend

/-! ## Ingestion pipeline (claims C1-C6), modelled from the spec -/

namespace Pipeline

/-- Modelled from the spec (section 3): a structured URL as produced by a
source adapter, at the granularity the urlKey normalization rules speak
about (scheme, host, optional port, path, query parameters). -/
structure Url where
  scheme : String
  host : String
  port : Option Nat
  path : String
  query : List (String × String)
  deriving DecidableEq

/-- ASCII lowercasing, character by character (a kernel-computable stand-in
for String.toLower). -/
def lowerStr (s : String) : String := String.mk (s.data.map Char.toLower)

/-- Modelled from the spec (section 4.2): the known tracking query parameters
that urlKey normalization strips; the concrete list is not in the visible
repository. -/
def trackingParams : List String :=
  ["utm", "utm_source", "utm_medium", "utm_campaign", "utm_term", "utm_content",
   "fbclid", "gclid", "ref"]

/-- Default port of a (lower-cased) scheme. -/
def defaultPort (scheme : String) : Option Nat :=
  if scheme = "http" then some 80 else if scheme = "https" then some 443 else none

/-- Strip one trailing slash. -/
def stripTrailingSlash (p : String) : String :=
  if p.data.getLast? = some '/' then String.mk p.data.dropLast else p

/-- Is a query parameter one of the known tracking parameters? -/
def isTracking (k : String) : Bool := trackingParams.contains (lowerStr k)

/-- Modelled from the spec (sections 4.2 and 8): urlKey normalization — the
scheme is lower-cased and then used only to recognize a default port, since
the spec's scenario fixes the key of https://x.com/a to "x.com/a" (no scheme
in the key); default ports are stripped, known tracking query parameters are
stripped, and a trailing slash is stripped. -/
def urlKey (u : Url) : String :=
  let scheme := lowerStr u.scheme
  let portPart :=
    match u.port with
    | none => ""
    | some p => if defaultPort scheme = some p then "" else ":" ++ toString p
  let kept := u.query.filter (fun kv => ! isTracking kv.1)
  let queryPart :=
    if kept.isEmpty then ""
    else "?" ++ String.intercalate ("&") (kept.map (fun kv => kv.1 ++ "=" ++ kv.2))
  lowerStr u.host ++ portPart ++ stripTrailingSlash u.path ++ queryPart

/-- Modelled from the spec (section 3): a normalized candidate article
produced by a source adapter. -/
structure Draft where
  sourceId : String
  url : Url
  title : String
  body : Option String
  summary : Option String
  publishedAt : Option Int
  sourceCategory : Option String

/-- Splits a character list into its maximal whitespace-free words
(structural recursion, kernel computable). -/
def wordsAux : List Char → List Char → List String
  | [], cur => if cur.isEmpty then [] else [String.mk cur.reverse]
  | c :: rest, cur =>
    if c.isWhitespace then
      if cur.isEmpty then wordsAux rest []
      else String.mk cur.reverse :: wordsAux rest []
    else wordsAux rest (c :: cur)

/-- Modelled from the spec (section 4.2): text normalization for the content
fingerprint — lowercase and collapse whitespace. -/
def normalizeText (s : String) : String :=
  String.intercalate (" ") (wordsAux (lowerStr s).data [])

/-- Modelled from the spec (section 4.2): the content fingerprint over
normalized title + body, falling back to title + summary when the body is
absent; the stable collision-resistant hash is modelled as the normalized
text itself. -/
def contentKey (d : Draft) : String :=
  normalizeText (d.title ++ " " ++ (d.body.getD (d.summary.getD (""))))

/-- Modelled from the spec (section 4.2): the embedding input is built from
title + summary, truncated to a bounded length. -/
def embedInput (d : Draft) : String :=
  String.mk ((d.title ++ " " ++ d.summary.getD ("")).data.take 512)

/-- Dot product of two embedding vectors. -/
def dot (a b : List Int) : Int := (List.zipWith (· * ·) a b).sum

/-- Squared Euclidean norm of an embedding vector. -/
def normSq (a : List Int) : Int := dot a a

/-- Modelled from the spec (section 4.2): the semantic-duplicate signal
"cosine similarity ≥ threshold", decided exactly over integer embedding
vectors by cross-multiplying away the square roots. For t = num/den with
den > 0: when 0 ≤ t, cos(a,b) ≥ t iff 0 ≤ a·b and num²·|a|²·|b|² ≤ den²·(a·b)²;
when t < 0, cos(a,b) ≥ t iff 0 ≤ a·b or den²·(a·b)² ≤ num²·|a|²·|b|².
Zero vectors never count as similar. -/
def simGe (a b : List Int) (t : ℚ) : Bool :=
  if normSq a * normSq b = 0 then false
  else if 0 ≤ t then
    decide (0 ≤ dot a b ∧
      t.num ^ 2 * (normSq a * normSq b) ≤ (t.den : Int) ^ 2 * dot a b ^ 2)
  else
    decide (0 ≤ dot a b ∨
      (t.den : Int) ^ 2 * dot a b ^ 2 ≤ t.num ^ 2 * (normSq a * normSq b))

/-- Modelled from the spec (section 4.4): output contract of the AI scoring
capability. -/
structure AiResult where
  score : ℚ
  category : String
  keywords : List String

/-- Modelled from the spec (sections 4.2-4.6): the tunable parameters and
optional external capabilities the pipeline is configured with. Capabilities
are modelled as deterministic functions; none means the capability is absent
and the pipeline degrades. -/
structure Config where
  window : Int
  threshold : ℚ
  embed : Option (String → List Int)
  ai : Option (String → AiResult)
  qualityThreshold : Option ℚ
  priority : String → Nat

/-- Embedding of a draft under the configured capability, if present. -/
def draftEmbedding (cfg : Config) (d : Draft) : Option (List Int) :=
  cfg.embed.map (fun f => f (embedInput d))

/-- Modelled from the spec (section 3): the durable deduplicated record; the
fingerprint data is kept on the record to model the persisted index the
dedup decision consults. -/
structure Article where
  id : Nat
  sourceId : String
  url : Url
  title : String
  body : Option String
  summary : Option String
  publishedAt : Option Int
  sourceCategory : Option String
  collectedAt : Int
  urlKey : String
  contentHash : String
  embedding : Option (List Int)
  alsoSeenOn : List String
  aiQualityScore : Option ℚ
  aiCategory : Option String
  aiKeywords : List String
  aiProcessed : Bool
  isRead : Bool
  isStarred : Bool
  isFiltered : Bool

/-- Modelled from the spec (section 4.3): fallback ordering key — an article
with missing publishedAt orders by collectedAt. -/
def Article.orderKey (a : Article) : Int := a.publishedAt.getD a.collectedAt

/-- Modelled from the spec (section 4.3): fallback ordering key of a draft
processed at time now. -/
def draftOrderKey (now : Int) (d : Draft) : Int := d.publishedAt.getD now

/-- Modelled from the spec (sections 4.3 and 6): the recency-window check for
windowed index lookups (findRecentByContentHash, findRecentSimilar). -/
def inWindow (cfg : Config) (now : Int) (a : Article) : Bool :=
  decide (now - a.collectedAt ≤ cfg.window)

/-- Exact-URL duplicate signal (unwindowed, spec section 6: findByUrlKey). -/
def urlMatch (d : Draft) (a : Article) : Bool :=
  decide (a.urlKey = urlKey d.url)

/-- Exact-content duplicate signal within the recency window. -/
def contentMatch (cfg : Config) (now : Int) (d : Draft) (a : Article) : Bool :=
  decide (a.contentHash = contentKey d) && inWindow cfg now a

/-- Semantic duplicate signal within the recency window; requires the
embedding capability and an indexed vector on the candidate article. -/
def semMatch (cfg : Config) (now : Int) (d : Draft) (a : Article) : Bool :=
  match draftEmbedding cfg d, a.embedding with
  | some v, some w => simGe v w cfg.threshold && inWindow cfg now a
  | _, _ => false

/-- Modelled from the spec (section 4.3 step 1): merge on exact urlKey —
refresh collectedAt only when the draft republishes fresher content,
otherwise discard the draft unchanged. -/
def mergeUrl (now : Int) (d : Draft) (a : Article) : Article :=
  if a.orderKey < draftOrderKey now d then { a with collectedAt := now } else a

/-- Modelled from the spec (section 4.3 step 2): merge on exact content —
preserve the earliest publishedAt and append the draft's source to the
"also seen on" attribute. -/
def mergeContent (now : Int) (d : Draft) (a : Article) : Article :=
  { a with
    publishedAt := if draftOrderKey now d < a.orderKey then d.publishedAt else a.publishedAt,
    alsoSeenOn :=
      if a.alsoSeenOn.contains d.sourceId then a.alsoSeenOn
      else a.alsoSeenOn ++ [d.sourceId] }

/-- Body length used by the "materially richer content" tie-break. -/
def bodyLen (s : Option String) : Nat := (s.getD ("")).length

/-- Modelled from the spec (section 4.3 step 3): semantic merge — the
earliest publishedAt stays canonical; a strictly higher-priority source with
a materially richer (strictly longer) body replaces the canonical body and
summary while the id is kept. -/
def mergeSem (cfg : Config) (now : Int) (d : Draft) (a : Article) : Article :=
  let promote :=
    (cfg.priority a.sourceId < cfg.priority d.sourceId) && (bodyLen a.body < bodyLen d.body)
  { a with
    publishedAt := if draftOrderKey now d < a.orderKey then d.publishedAt else a.publishedAt,
    body := if promote then d.body else a.body,
    summary := if promote then d.summary else a.summary }

/-- Updates the first list element satisfying p with f; the index stores the
earliest-accepted article first, so this is the deterministic
"first processed wins" target selection. -/
def updateFirst (p : Article → Bool) (f : Article → Article) : List Article → List Article
  | [] => []
  | a :: rest => if p a then f a :: rest else a :: updateFirst p f rest

/-- Modelled from the spec (section 4.3 step 4): promotion of an accepted
draft to a fresh Article, with a newly assigned id and collectedAt set to the
assignment time; AI fields start empty and user state starts false. -/
def mkArticle (cfg : Config) (now : Int) (id : Nat) (d : Draft) : Article :=
  { id := id, sourceId := d.sourceId, url := d.url, title := d.title,
    body := d.body, summary := d.summary, publishedAt := d.publishedAt,
    sourceCategory := d.sourceCategory, collectedAt := now,
    urlKey := urlKey d.url, contentHash := contentKey d,
    embedding := draftEmbedding cfg d, alsoSeenOn := [d.sourceId],
    aiQualityScore := none, aiCategory := none, aiKeywords := [],
    aiProcessed := false, isRead := false, isStarred := false, isFiltered := false }

/-- Enrichment input, built like the embedding input. -/
def enrichInput (a : Article) : String :=
  String.mk ((a.title ++ " " ++ a.summary.getD ("")).data.take 512)

/-- Modelled from the spec (section 4.4): best-effort AI enrichment of a
freshly accepted article. When the capability is absent the article proceeds
with aiProcessed = false; when present it attaches score, category and
keywords, and a configured quality threshold marks low-score articles
isFiltered (they are still stored). -/
def enrich (cfg : Config) (a : Article) : Article :=
  match cfg.ai with
  | none => a
  | some f =>
    let r := f (enrichInput a)
    { a with
      aiQualityScore := some r.score, aiCategory := some r.category,
      aiKeywords := r.keywords, aiProcessed := true,
      isFiltered :=
        match cfg.qualityThreshold with
        | some q => decide (r.score < q)
        | none => false }

/-- Outcome of the dedup decision for one draft (spec section 4.3): merged by
exact URL, merged by exact content, merged semantically, or accepted as new. -/
inductive Outcome where
  | accepted
  | mergedUrl
  | mergedContent
  | mergedSem
  deriving DecidableEq

/-- Modelled from the spec (section 4.3): the dedup decision state machine
for one draft against the current index — exact-URL match first (unwindowed),
then exact-content match within the window, then semantic match within the
window, else accept with a fresh id. -/
def processDraft (cfg : Config) (now : Int) (st : List Article) (d : Draft) :
    List Article × Outcome :=
  if st.any (urlMatch d) then
    (updateFirst (urlMatch d) (mergeUrl now d) st, Outcome.mergedUrl)
  else if st.any (contentMatch cfg now d) then
    (updateFirst (contentMatch cfg now d) (mergeContent now d) st, Outcome.mergedContent)
  else if st.any (semMatch cfg now d) then
    (updateFirst (semMatch cfg now d) (mergeSem cfg now d) st, Outcome.mergedSem)
  else
    (st ++ [enrich cfg (mkArticle cfg now st.length d)], Outcome.accepted)

/-- Processes a batch of drafts in order, returning the final index and the
per-draft outcomes. -/
def processList (cfg : Config) (now : Int) (st : List Article) :
    List Draft → List Article × List Outcome
  | [] => (st, [])
  | d :: rest =>
    let s1 := processDraft cfg now st d
    let s2 := processList cfg now s1.1 rest
    (s2.1, s1.2 :: s2.2)

/-- Per-source counters of a run report (spec section 3: RunReport). -/
structure SourceCounts where
  fetched : Nat
  accepted : Nat
  duplicates : Nat
  errors : Nat
  deriving DecidableEq

/-- Number of accepted outcomes in a batch. -/
def countAccepted (os : List Outcome) : Nat :=
  os.countP (fun o => decide (o = Outcome.accepted))

/-- Number of semantic merges in a batch. -/
def countSem (os : List Outcome) : Nat :=
  os.countP (fun o => decide (o = Outcome.mergedSem))

/-- Modelled from the spec (sections 3 and 4.5): one collection cycle for one
source — all fetched drafts flow through the dedup decision and the counters
are aggregated. -/
def runSource (cfg : Config) (now : Int) (st : List Article) (drafts : List Draft) :
    List Article × SourceCounts :=
  let r := processList cfg now st drafts
  (r.1,
   { fetched := drafts.length, accepted := countAccepted r.2,
     duplicates := r.2.length - countAccepted r.2, errors := 0 })

/-- Modelled from the spec (section 3): the run report of one collection
cycle. -/
structure RunReport where
  startedAt : Int
  finishedAt : Int
  perSource : List (String × SourceCounts)
  deriving DecidableEq

/-- Folds a whole upstream (source id with its fetched drafts, in order)
through the pipeline. -/
def runSources (cfg : Config) (now : Int) (st : List Article) :
    List (String × List Draft) → List Article × List (String × SourceCounts)
  | [] => (st, [])
  | (sid, drafts) :: rest =>
    let r1 := runSource cfg now st drafts
    let r2 := runSources cfg now r1.1 rest
    (r2.1, (sid, r1.2) :: r2.2)

/-- Modelled from the spec (sections 2 and 4.5): one collection cycle over the
whole upstream, producing the updated index and the RunReport. -/
def runCollection (cfg : Config) (now : Int) (st : List Article)
    (upstream : List (String × List Draft)) : List Article × RunReport :=
  let r := runSources cfg now st upstream
  (r.1, { startedAt := now, finishedAt := now, perSource := r.2 })

/-- No two distinct articles of an index share a urlKey. -/
def distinctUrlKeys (st : List Article) : Prop :=
  (st.map Article.urlKey).Nodup

/-- Erases the fields written by the AI enrichment stage (the four AI fields
and the quality-threshold isFiltered mark), for comparing runs with and
without the enrichment capability. -/
def eraseAi (a : Article) : Article :=
  { a with
    aiQualityScore := none, aiCategory := none, aiKeywords := [],
    aiProcessed := false, isFiltered := false }

/-- A raw (unwindowed) duplicate relation between an indexed article and a
draft: one of the three fingerprint signals fires. -/
def rawMatch (cfg : Config) (d : Draft) (a : Article) : Prop :=
  a.urlKey = urlKey d.url ∨ a.contentHash = contentKey d ∨
  (∃ v w, draftEmbedding cfg d = some v ∧ a.embedding = some w ∧
    simGe v w cfg.threshold = true)

/-- Every indexed article is recent enough at time t to be a windowed
dedup candidate. -/
def recent (cfg : Config) (t : Int) (st : List Article) : Prop :=
  ∀ a ∈ st, t - a.collectedAt ≤ cfg.window

/-! Fixtures for the threshold-monotonicity counterexample (claim C4):
four drafts with pairwise distinct urlKeys and content, whose embedding
vectors make a low threshold produce one semantic merge but a high
threshold produce two, because the low threshold merges the second draft
away while the high threshold accepts it and it then attracts the third
and fourth drafts. -/

/-- The rational 2/5, built literally so that the kernel can compute with it. -/
def tLow : ℚ := ⟨2, 5, by decide, by decide⟩

/-- The rational 7/10, built literally so that the kernel can compute with it. -/
def tHigh : ℚ := ⟨7, 10, by decide, by decide⟩

/-- Concrete embedding capability for the counterexample. -/
def embC4 (s : String) : List Int :=
  if s = "a " then [1, 0, 2]
  else if s = "b " then [1, 0, 0]
  else if s = "c " then [1, 1, 0]
  else if s = "d " then [1, -1, 0]
  else [0]

/-- Concrete draft for the counterexample. -/
def draftC4 (t host : String) : Draft :=
  { sourceId := "s1",
    url := { scheme := "https", host := host, port := none, path := "/", query := [] },
    title := t, body := none, summary := none, publishedAt := some 0,
    sourceCategory := none }

/-- The fixed four-draft input set of the counterexample. -/
def draftsC4 : List Draft :=
  [draftC4 ("a") ("a.example"), draftC4 ("b") ("b.example"),
   draftC4 ("c") ("c.example"), draftC4 ("d") ("d.example")]

/-- Configuration of the counterexample, parameterized by the similarity
threshold. -/
def cfgC4 (t : ℚ) : Config :=
  { window := 1000000, threshold := t, embed := some embC4, ai := none,
    qualityThreshold := none, priority := fun _ => 0 }

/-! Concrete fixtures for witnesses. -/

/-- Witness draft: same content as dW2 but a different URL, published at 5. -/
def dW1 : Draft :=
  { sourceId := "w1",
    url := { scheme := "https", host := "a.example", port := none, path := "/x", query := [] },
    title := "Breaking news", body := some "Body text", summary := none,
    publishedAt := some 5, sourceCategory := none }

/-- Witness draft: same content as dW1 but a different URL, published at 3. -/
def dW2 : Draft :=
  { sourceId := "w2",
    url := { scheme := "https", host := "b.example", port := none, path := "/y", query := [] },
    title := "Breaking news", body := some "Body text", summary := none,
    publishedAt := some 3, sourceCategory := none }

/-- Witness draft: first of two drafts with the same URL. -/
def dU1 : Draft :=
  { sourceId := "u1",
    url := { scheme := "https", host := "x.com", port := none, path := "/a", query := [] },
    title := "T one", body := none, summary := none,
    publishedAt := some 1, sourceCategory := none }

/-- Witness draft: second draft with the same URL as dU1. -/
def dU2 : Draft :=
  { dU1 with sourceId := "u2", title := "T two", publishedAt := some 2 }

end Pipeline

/-! ## Scheduler / run coordinator (claim C7), modelled from the spec -/

namespace Sched

/-- Modelled from the spec (section 4.5): external events seen by the run
coordinator — a trigger (timer or on-demand) for one source, or the
completion of a source's run. -/
inductive Event where
  | trigger (sourceId : String)
  | finish (sourceId : String)

/-- Modelled from the spec (section 4.5): coordinator state — how many runs
are in flight per source, and how many triggers have been queued per source
(the spec's rule is that this queue is never used: triggers are coalesced). -/
structure State where
  inFlight : String → Nat
  queued : String → Nat

/-- Initial coordinator state: nothing in flight, nothing queued. -/
def init : State := { inFlight := fun _ => 0, queued := fun _ => 0 }

/-- Modelled from the spec (section 4.5): a trigger for a source with a run
already in flight is coalesced — ignored entirely, neither queued nor
stacked; otherwise it starts a run. A finish clears the source's run. -/
def step (st : State) (e : Event) : State :=
  match e with
  | Event.trigger s =>
    if st.inFlight s = 0 then
      { st with inFlight := fun s' => if s' = s then st.inFlight s' + 1 else st.inFlight s' }
    else st
  | Event.finish s =>
    { st with inFlight := fun s' => if s' = s then 0 else st.inFlight s' }

/-- The coordinator state reached from init by a sequence of events. -/
def run (es : List Event) : State := es.foldl step init

end Sched

/-! ## Theorems -/

open Pipeline

/-- C8: the article-update path can mutate only the user-state fields
is_read and is_starred — the DTO built by mapArticleUpdateToDto carries
exactly the update's isRead and isStarred values and nothing else, so
applying it to a stored article leaves every other field (title, url,
content, summary, source, category, timestamps, AI fields, is_filtered)
unchanged. -/
theorem C8_update_frame (a : Frontend.Article) (u : Frontend.ArticleUpdate) :
    (Frontend.mapArticleUpdateToDto u).is_read = u.isRead ∧
    (Frontend.mapArticleUpdateToDto u).is_starred = u.isStarred ∧
    (Frontend.applyArticleUpdateDto a (Frontend.mapArticleUpdateToDto u)).id = a.id ∧
    (Frontend.applyArticleUpdateDto a (Frontend.mapArticleUpdateToDto u)).title = a.title ∧
    (Frontend.applyArticleUpdateDto a (Frontend.mapArticleUpdateToDto u)).content = a.content ∧
    (Frontend.applyArticleUpdateDto a (Frontend.mapArticleUpdateToDto u)).summary = a.summary ∧
    (Frontend.applyArticleUpdateDto a (Frontend.mapArticleUpdateToDto u)).url = a.url ∧
    (Frontend.applyArticleUpdateDto a (Frontend.mapArticleUpdateToDto u)).source = a.source ∧
    (Frontend.applyArticleUpdateDto a (Frontend.mapArticleUpdateToDto u)).source_category
      = a.source_category ∧
    (Frontend.applyArticleUpdateDto a (Frontend.mapArticleUpdateToDto u)).published_at
      = a.published_at ∧
    (Frontend.applyArticleUpdateDto a (Frontend.mapArticleUpdateToDto u)).collected_at
      = a.collected_at ∧
    (Frontend.applyArticleUpdateDto a (Frontend.mapArticleUpdateToDto u)).ai_quality_score
      = a.ai_quality_score ∧
    (Frontend.applyArticleUpdateDto a (Frontend.mapArticleUpdateToDto u)).ai_category
      = a.ai_category ∧
    (Frontend.applyArticleUpdateDto a (Frontend.mapArticleUpdateToDto u)).ai_keywords
      = a.ai_keywords ∧
    (Frontend.applyArticleUpdateDto a (Frontend.mapArticleUpdateToDto u)).ai_processed
      = a.ai_processed ∧
    (Frontend.applyArticleUpdateDto a (Frontend.mapArticleUpdateToDto u)).is_filtered
      = a.is_filtered :=
  ⟨rfl, rfl, rfl, rfl, rfl, rfl, rfl, rfl, rfl, rfl, rfl, rfl, rfl, rfl, rfl, rfl⟩

/-- C10: the two transcribed copies of formatRelativeTime — the one in
src/frontend/src/shared/utils/time.ts and the first definition in
src/frontend/src/utils/time.ts — are extensionally equal: they return the
identical string for every date and every current clock value. -/
theorem C10_formatRelativeTime_copies (now : Int) (d : Frontend.JsDate) :
    Frontend.formatRelativeTimeShared now d = Frontend.formatRelativeTimeUtils now d := rfl

/-- Floor division (JS Math.floor of a quotient) with a nonnegative divisor
is Euclidean division, which omega can reason about. -/
theorem jsFloorDiv_eq (a b : Int) (h : 0 ≤ b) : Frontend.jsFloorDiv a b = a / b :=
  Int.fdiv_eq_ediv a h

/-- C9: for every date strictly more than 60 minutes later than the current
clock, formatRelativeTime returns the zero-padded YYYY-MM-DD string of that
date; for every future date at most 60 minutes ahead it returns "刚刚"; and
the function is total, always returning one of the five documented shapes. -/
theorem C9_formatRelativeTime_future (now : Int) (d : Frontend.JsDate) :
    (now + 3600000 < d.ms →
      Frontend.formatRelativeTimeShared now d = Frontend.ymdString d) ∧
    (now < d.ms → d.ms ≤ now + 3600000 →
      Frontend.formatRelativeTimeShared now d = "刚刚") ∧
    (Frontend.formatRelativeTimeShared now d = "刚刚" ∨
      (∃ n : Int, Frontend.formatRelativeTimeShared now d = toString n ++ "分钟前") ∨
      (∃ n : Int, Frontend.formatRelativeTimeShared now d = toString n ++ "小时前") ∨
      (∃ n : Int, Frontend.formatRelativeTimeShared now d = toString n ++ "天前") ∨
      Frontend.formatRelativeTimeShared now d = Frontend.ymdString d) := by
  have e1 : Frontend.jsFloorDiv (now - d.ms) 1000 = (now - d.ms) / 1000 :=
    jsFloorDiv_eq _ _ (by norm_num)
  have e2 : Frontend.jsFloorDiv ((now - d.ms) / 1000) 60 = (now - d.ms) / 1000 / 60 :=
    jsFloorDiv_eq _ _ (by norm_num)
  have e3 : Frontend.jsFloorDiv ((now - d.ms) / 1000 / 60) 60
      = (now - d.ms) / 1000 / 60 / 60 :=
    jsFloorDiv_eq _ _ (by norm_num)
  have e4 : Frontend.jsFloorDiv ((now - d.ms) / 1000 / 60 / 60) 24
      = (now - d.ms) / 1000 / 60 / 60 / 24 :=
    jsFloorDiv_eq _ _ (by norm_num)
  refine ⟨?_, ?_, ?_⟩
  · intro h
    have hneg : now - d.ms < 0 := by omega
    have habs : ¬ (|(now - d.ms) / 1000 / 60| ≤ 60) := by
      rw [abs_le]
      omega
    simp only [Frontend.formatRelativeTimeShared, e1, e2, e3, e4]
    rw [if_pos hneg, if_neg habs]
  · intro h1 h2
    have hneg : now - d.ms < 0 := by omega
    have habs : |(now - d.ms) / 1000 / 60| ≤ 60 := by
      rw [abs_le]
      omega
    simp only [Frontend.formatRelativeTimeShared, e1, e2, e3, e4]
    rw [if_pos hneg, if_pos habs]
  · simp only [Frontend.formatRelativeTimeShared, e1, e2, e3, e4]
    split_ifs
    · exact Or.inl rfl
    · exact Or.inr (Or.inr (Or.inr (Or.inr rfl)))
    · exact Or.inl rfl
    · exact Or.inr (Or.inl ⟨_, rfl⟩)
    · exact Or.inr (Or.inr (Or.inl ⟨_, rfl⟩))
    · exact Or.inr (Or.inr (Or.inr (Or.inl ⟨_, rfl⟩)))
    · exact Or.inr (Or.inr (Or.inr (Or.inr rfl)))

/-- Witness for C9: a date 3600001 ms in the future renders as YYYY-MM-DD,
and a date exactly 3600000 ms (60 minutes) in the future renders as "刚刚". -/
theorem C9_witness :
    Frontend.formatRelativeTimeShared 0
        { ms := 3600001, fullYear := 2026, month0 := 9, date := 11 }
      = Frontend.ymdString { ms := 3600001, fullYear := 2026, month0 := 9, date := 11 } ∧
    Frontend.formatRelativeTimeShared 0
        { ms := 3600000, fullYear := 2026, month0 := 9, date := 11 }
      = "刚刚" :=
  ⟨(C9_formatRelativeTime_future 0 _).1 (by decide),
   (C9_formatRelativeTime_future 0 _).2.1 (by decide) (by decide)⟩

/-- One coordinator step keeps at most one run in flight per source and never
queues a trigger. -/
theorem sched_step_inv (st : Sched.State) (e : Sched.Event) (s : String)
    (h1 : st.inFlight s ≤ 1) (h2 : st.queued s = 0) :
    (Sched.step st e).inFlight s ≤ 1 ∧ (Sched.step st e).queued s = 0 := by
  cases e with
  | trigger s' =>
    by_cases hz : st.inFlight s' = 0
    · simp only [Sched.step, if_pos hz]
      refine ⟨?_, h2⟩
      by_cases hs : s = s'
      · subst hs
        simp [hz]
      · simpa [hs] using h1
    · simp only [Sched.step, if_neg hz]
      exact ⟨h1, h2⟩
  | finish s' =>
    refine ⟨?_, h2⟩
    simp only [Sched.step]
    by_cases hs : s = s'
    · subst hs
      simp
    · simpa [hs] using h1

/-- The coordinator invariant holds along any event sequence. -/
theorem sched_run_inv (s : String) :
    ∀ (es : List Sched.Event) (st : Sched.State),
      st.inFlight s ≤ 1 → st.queued s = 0 →
      (es.foldl Sched.step st).inFlight s ≤ 1 ∧ (es.foldl Sched.step st).queued s = 0 := by
  intro es
  induction es with
  | nil => exact fun st h1 h2 => ⟨h1, h2⟩
  | cons e rest ih =>
    intro st h1 h2
    rw [List.foldl_cons]
    obtain ⟨g1, g2⟩ := sched_step_inv st e s h1 h2
    exact ih _ g1 g2

/-- C7: in every reachable state of the run coordinator, at most one
collection run per source is in flight and the trigger queue is empty
(triggers are never queued), and a trigger arriving for a source whose run
is still in flight is coalesced: the step leaves the state unchanged. -/
theorem C7_coalescing (es : List Sched.Event) (s : String) :
    (Sched.run es).inFlight s ≤ 1 ∧ (Sched.run es).queued s = 0 ∧
    (∀ st : Sched.State, st.inFlight s ≠ 0 →
      Sched.step st (Sched.Event.trigger s) = st) := by
  obtain ⟨h1, h2⟩ := sched_run_inv s es Sched.init (Nat.zero_le 1) rfl
  refine ⟨h1, h2, ?_⟩
  intro st h
  simp [Sched.step, h]

/-- Witness for C7: two triggers for the same source leave at most one run in
flight, and a trigger in a running state is a no-op. -/
theorem C7_witness :
    (Sched.run [Sched.Event.trigger ("a"), Sched.Event.trigger ("a")]).inFlight ("a") ≤ 1 ∧
    Sched.step { inFlight := fun _ => 1, queued := fun _ => 0 }
        (Sched.Event.trigger ("a"))
      = { inFlight := fun _ => 1, queued := fun _ => 0 } :=
  ⟨(C7_coalescing [Sched.Event.trigger ("a"), Sched.Event.trigger ("a")] ("a")).1,
   (C7_coalescing [] ("a")).2.2 { inFlight := fun _ => 1, queued := fun _ => 0 }
     (by decide)⟩

/-- C3: urlKey maps any two URLs that differ only in known tracking query
parameters to the same key, and concretely both https://x.com/a?utm=1 and
https://x.com/a normalize to the key "x.com/a". -/
theorem C3_urlKey_tracking (u1 u2 : Url)
    (hs : u1.scheme = u2.scheme) (hh : u1.host = u2.host) (hp : u1.port = u2.port)
    (hpath : u1.path = u2.path)
    (hq : u1.query.filter (fun kv => ! isTracking kv.1)
        = u2.query.filter (fun kv => ! isTracking kv.1)) :
    urlKey u1 = urlKey u2 ∧
    urlKey { scheme := "https", host := "x.com", port := none, path := "/a",
             query := [("utm", "1")] } = "x.com/a" ∧
    urlKey { scheme := "https", host := "x.com", port := none, path := "/a",
             query := [] } = "x.com/a" := by
  refine ⟨?_, by decide, by decide⟩
  simp only [urlKey, hs, hh, hp, hpath, hq]

/-- Witness for C3: the two scenario URLs, which differ only in the tracking
parameter utm, get the same urlKey. -/
theorem C3_witness :
    urlKey { scheme := "https", host := "x.com", port := none, path := "/a",
             query := [("utm", "1")] }
      = urlKey { scheme := "https", host := "x.com", port := none, path := "/a",
                 query := ([] : List (String × String)) } :=
  (C3_urlKey_tracking _ _ rfl rfl rfl rfl (by decide)).1

/-- The squared norm of an integer vector is nonnegative. -/
theorem normSq_nonneg (a : List Int) : 0 ≤ normSq a := by
  unfold normSq dot
  rw [List.zipWith_same]
  refine List.sum_nonneg ?_
  intro x hx
  obtain ⟨y, _, rfl⟩ := List.mem_map.mp hx
  exact mul_self_nonneg y

/-- Cross-multiplied threshold comparison, upper-bound direction: for
t = num/den with den > 0, num²n ≤ den²e² iff t²n ≤ e² over ℚ. -/
theorem crossmul_le_iff (t : ℚ) (n e : Int) :
    t.num ^ 2 * n ≤ (t.den : Int) ^ 2 * e ^ 2 ↔ t ^ 2 * (n : ℚ) ≤ (e : ℚ) ^ 2 := by
  have hden : (0 : ℚ) < (t.den : ℚ) := by exact_mod_cast t.den_pos
  have hmul : (t : ℚ) * (t.den : ℚ) = (t.num : ℚ) := by
    nth_rewrite 1 [← Rat.num_div_den t]
    field_simp
  have key : t ^ 2 * (n : ℚ) * ((t.den : ℚ)) ^ 2 = ((t.num : ℚ)) ^ 2 * (n : ℚ) := by
    rw [← hmul]
    ring
  constructor
  · intro h
    have hq : ((t.num : ℚ)) ^ 2 * (n : ℚ) ≤ ((t.den : ℚ)) ^ 2 * ((e : ℚ)) ^ 2 := by
      exact_mod_cast h
    have h2 : t ^ 2 * (n : ℚ) * ((t.den : ℚ)) ^ 2 ≤ ((e : ℚ)) ^ 2 * ((t.den : ℚ)) ^ 2 := by
      rw [key]
      linarith [hq]
    exact le_of_mul_le_mul_right h2 (by positivity)
  · intro h
    have h2 : t ^ 2 * (n : ℚ) * ((t.den : ℚ)) ^ 2 ≤ ((e : ℚ)) ^ 2 * ((t.den : ℚ)) ^ 2 :=
      mul_le_mul_of_nonneg_right h (by positivity)
    rw [key] at h2
    have h3 : ((t.num : ℚ)) ^ 2 * (n : ℚ) ≤ ((t.den : ℚ)) ^ 2 * ((e : ℚ)) ^ 2 := by
      linarith [h2]
    exact_mod_cast h3

/-- Cross-multiplied threshold comparison, lower-bound direction. -/
theorem crossmul_ge_iff (t : ℚ) (n e : Int) :
    (t.den : Int) ^ 2 * e ^ 2 ≤ t.num ^ 2 * n ↔ (e : ℚ) ^ 2 ≤ t ^ 2 * (n : ℚ) := by
  have hden : (0 : ℚ) < (t.den : ℚ) := by exact_mod_cast t.den_pos
  have hmul : (t : ℚ) * (t.den : ℚ) = (t.num : ℚ) := by
    nth_rewrite 1 [← Rat.num_div_den t]
    field_simp
  have key : t ^ 2 * (n : ℚ) * ((t.den : ℚ)) ^ 2 = ((t.num : ℚ)) ^ 2 * (n : ℚ) := by
    rw [← hmul]
    ring
  constructor
  · intro h
    have hq : ((t.den : ℚ)) ^ 2 * ((e : ℚ)) ^ 2 ≤ ((t.num : ℚ)) ^ 2 * (n : ℚ) := by
      exact_mod_cast h
    have h2 : ((e : ℚ)) ^ 2 * ((t.den : ℚ)) ^ 2 ≤ t ^ 2 * (n : ℚ) * ((t.den : ℚ)) ^ 2 := by
      rw [key]
      linarith [hq]
    exact le_of_mul_le_mul_right h2 (by positivity)
  · intro h
    have h2 : ((e : ℚ)) ^ 2 * ((t.den : ℚ)) ^ 2 ≤ t ^ 2 * (n : ℚ) * ((t.den : ℚ)) ^ 2 :=
      mul_le_mul_of_nonneg_right h (by positivity)
    rw [key] at h2
    have h3 : ((t.den : ℚ)) ^ 2 * ((e : ℚ)) ^ 2 ≤ ((t.num : ℚ)) ^ 2 * (n : ℚ) := by
      linarith [h2]
    exact_mod_cast h3

/-- Lowering the threshold can only keep or create the semantic-duplicate
signal for a fixed pair of vectors. -/
theorem simGe_mono (a b : List Int) (t1 t2 : ℚ) (hle : t1 ≤ t2)
    (h : simGe a b t2 = true) : simGe a b t1 = true := by
  unfold simGe at h ⊢
  by_cases hz : normSq a * normSq b = 0
  · rw [if_pos hz] at h
    exact absurd h (by simp)
  rw [if_neg hz] at h ⊢
  have hn : (0 : ℚ) ≤ ((normSq a * normSq b : Int) : ℚ) := by
    exact_mod_cast mul_nonneg (normSq_nonneg a) (normSq_nonneg b)
  rcases le_or_lt 0 t2 with h2 | h2
  · rw [if_pos h2, decide_eq_true_eq] at h
    obtain ⟨hd, hcmp⟩ := h
    have hq2 : t2 ^ 2 * ((normSq a * normSq b : Int) : ℚ) ≤ ((dot a b : Int) : ℚ) ^ 2 := by
      have := (crossmul_le_iff t2 (normSq a * normSq b) (dot a b)).mp hcmp
      exact_mod_cast this
    rcases le_or_lt 0 t1 with h1 | h1
    · rw [if_pos h1, decide_eq_true_eq]
      refine ⟨hd, (crossmul_le_iff t1 (normSq a * normSq b) (dot a b)).mpr ?_⟩
      have hsq : t1 ^ 2 ≤ t2 ^ 2 := by nlinarith
      nlinarith
    · rw [if_neg (not_le.mpr h1), decide_eq_true_eq]
      exact Or.inl hd
  · have h1 : t1 < 0 := lt_of_le_of_lt hle h2
    rw [if_neg (not_le.mpr h2), decide_eq_true_eq] at h
    rw [if_neg (not_le.mpr h1), decide_eq_true_eq]
    rcases h with hd | hcmp
    · exact Or.inl hd
    · refine Or.inr ((crossmul_ge_iff t1 (normSq a * normSq b) (dot a b)).mpr ?_)
      have hq2 : ((dot a b : Int) : ℚ) ^ 2 ≤ t2 ^ 2 * ((normSq a * normSq b : Int) : ℚ) := by
        have := (crossmul_ge_iff t2 (normSq a * normSq b) (dot a b)).mp hcmp
        exact_mod_cast this
      have hsq : t2 ^ 2 ≤ t1 ^ 2 := by nlinarith
      nlinarith

/-- The dedup decision accepts a draft exactly when none of the three
duplicate signals fires against the index. -/
theorem processDraft_accepted_iff (cfg : Config) (now : Int) (st : List Article)
    (d : Draft) :
    (processDraft cfg now st d).2 = Outcome.accepted ↔
      st.any (urlMatch d) = false ∧ st.any (contentMatch cfg now d) = false ∧
      st.any (semMatch cfg now d) = false := by
  unfold processDraft
  split_ifs with h1 h2 h3 <;> simp_all

/-- The semantic-duplicate signal against a fixed article survives a
lowering of the configured threshold. -/
theorem semMatch_mono (cfg : Config) (t1 : ℚ) (now : Int) (d : Draft) (a : Article)
    (hle : t1 ≤ cfg.threshold) (h : semMatch cfg now d a = true) :
    semMatch { cfg with threshold := t1 } now d a = true := by
  rcases hv : draftEmbedding cfg d with _ | v
  · rw [semMatch, hv] at h
    exact absurd h (by simp)
  rcases hw : a.embedding with _ | w
  · rw [semMatch, hv, hw] at h
    exact absurd h (by simp)
  have hv' : draftEmbedding { cfg with threshold := t1 } d = some v := hv
  rw [semMatch, hv, hw, Bool.and_eq_true] at h
  rw [semMatch, hv', hw, Bool.and_eq_true]
  exact ⟨simGe_mono v w t1 cfg.threshold hle h.1, h.2⟩

/-- C4 counterexample: the claim as stated is false. For the fixed four-draft
input set draftsC4, raising the similarity threshold from 2/5 to 7/10
increases the number of semantic merges from 1 to 2: at the low threshold the
second draft merges into the first and the remaining two drafts match
nothing, while at the high threshold the second draft is accepted and then
attracts both the third and the fourth draft. -/
theorem C4_counterexample :
    tLow ≤ tHigh ∧
    countSem (processList (cfgC4 tLow) 0 [] draftsC4).2 = 1 ∧
    countSem (processList (cfgC4 tHigh) 0 [] draftsC4).2 = 2 :=
  ⟨by decide, by decide, by decide⟩

/-- C4 amended: the monotonicity that does hold is per decision — against a
fixed index of existing articles, a draft that the dedup decision merges
(does not accept) at threshold t2 is still merged at every lower threshold
t1 ≤ t2. The run-level count claim fails because changing the threshold
changes which articles enter the index (see the counterexample). -/
theorem C4_amended (cfg : Config) (t1 : ℚ) (now : Int)
    (st : List Article) (d : Draft)
    (hle : t1 ≤ cfg.threshold)
    (hm : (processDraft cfg now st d).2 ≠ Outcome.accepted) :
    (processDraft { cfg with threshold := t1 } now st d).2 ≠ Outcome.accepted := by
  intro hacc
  apply hm
  rw [processDraft_accepted_iff] at hacc ⊢
  obtain ⟨h1, h2, h3⟩ := hacc
  have hcm : contentMatch { cfg with threshold := t1 } now d = contentMatch cfg now d := rfl
  rw [hcm] at h2
  refine ⟨h1, h2, ?_⟩
  by_contra hne
  have htrue : st.any (semMatch cfg now d) = true := by
    cases hb : st.any (semMatch cfg now d)
    · exact absurd hb hne
    · rfl
  obtain ⟨x, hx, hsem⟩ := List.any_eq_true.mp htrue
  have hall : st.any (semMatch { cfg with threshold := t1 } now d) = true :=
    List.any_eq_true.mpr ⟨x, hx, semMatch_mono cfg t1 now d x hle hsem⟩
  rw [h3] at hall
  exact Bool.false_ne_true hall

/-- Witness for the amended C4: against the index built at the high
threshold from the first two counterexample drafts, the third draft is
merged at the high threshold and stays merged at the low threshold. -/
theorem C4_witness :
    tLow ≤ (cfgC4 tHigh).threshold ∧
    (processDraft { cfgC4 tHigh with threshold := tLow } 0
        (processList (cfgC4 tHigh) 0 []
          [draftC4 ("a") ("a.example"), draftC4 ("b") ("b.example")]).1
        (draftC4 ("c") ("c.example"))).2 ≠ Outcome.accepted :=
  ⟨by decide,
   C4_amended (cfgC4 tHigh) tLow 0
     (processList (cfgC4 tHigh) 0 []
       [draftC4 ("a") ("a.example"), draftC4 ("b") ("b.example")]).1
     (draftC4 ("c") ("c.example")) (by decide) (by decide)⟩

/-- Merging on exact URL preserves identity, the fingerprint fields and
publishedAt, and can only refresh collectedAt to the processing time. -/
theorem mergeUrl_fields (now : Int) (d : Draft) (a : Article) :
    (mergeUrl now d a).id = a.id ∧ (mergeUrl now d a).urlKey = a.urlKey ∧
    (mergeUrl now d a).contentHash = a.contentHash ∧
    (mergeUrl now d a).embedding = a.embedding ∧
    (mergeUrl now d a).publishedAt = a.publishedAt ∧
    ((mergeUrl now d a).collectedAt = a.collectedAt ∨
      (mergeUrl now d a).collectedAt = now) := by
  unfold mergeUrl
  split
  · exact ⟨rfl, rfl, rfl, rfl, rfl, Or.inr rfl⟩
  · exact ⟨rfl, rfl, rfl, rfl, rfl, Or.inl rfl⟩

/-- Merging on exact content preserves identity, the fingerprint fields and
collectedAt. -/
theorem mergeContent_fields (now : Int) (d : Draft) (a : Article) :
    (mergeContent now d a).id = a.id ∧ (mergeContent now d a).urlKey = a.urlKey ∧
    (mergeContent now d a).contentHash = a.contentHash ∧
    (mergeContent now d a).embedding = a.embedding ∧
    (mergeContent now d a).collectedAt = a.collectedAt :=
  ⟨rfl, rfl, rfl, rfl, rfl⟩

/-- Semantic merging preserves identity, the fingerprint fields and
collectedAt. -/
theorem mergeSem_fields (cfg : Config) (now : Int) (d : Draft) (a : Article) :
    (mergeSem cfg now d a).id = a.id ∧ (mergeSem cfg now d a).urlKey = a.urlKey ∧
    (mergeSem cfg now d a).contentHash = a.contentHash ∧
    (mergeSem cfg now d a).embedding = a.embedding ∧
    (mergeSem cfg now d a).collectedAt = a.collectedAt :=
  ⟨rfl, rfl, rfl, rfl, rfl⟩

/-- Enrichment writes only the AI fields and the filter mark. -/
theorem enrich_fields (cfg : Config) (a : Article) :
    (enrich cfg a).id = a.id ∧ (enrich cfg a).urlKey = a.urlKey ∧
    (enrich cfg a).contentHash = a.contentHash ∧
    (enrich cfg a).embedding = a.embedding ∧
    (enrich cfg a).collectedAt = a.collectedAt ∧
    (enrich cfg a).publishedAt = a.publishedAt := by
  unfold enrich
  cases cfg.ai
  · exact ⟨rfl, rfl, rfl, rfl, rfl, rfl⟩
  · exact ⟨rfl, rfl, rfl, rfl, rfl, rfl⟩

/-- updateFirst preserves any per-element field that the update preserves. -/
theorem updateFirst_map_field {β : Type} (g : Article → β) (p : Article → Bool)
    (f : Article → Article) (hf : ∀ a, g (f a) = g a) :
    ∀ st : List Article, (updateFirst p f st).map g = st.map g := by
  intro st
  induction st with
  | nil => rfl
  | cons a rest ih =>
    unfold updateFirst
    split
    · simp [hf]
    · simp only [List.map_cons]
      rw [ih]

/-- updateFirst never changes the number of indexed articles. -/
theorem updateFirst_length (p : Article → Bool) (f : Article → Article) :
    ∀ st : List Article, (updateFirst p f st).length = st.length := by
  intro st
  induction st with
  | nil => rfl
  | cons a rest ih =>
    unfold updateFirst
    split
    · simp
    · simp [ih]

/-- One dedup step preserves urlKey distinctness of the index. -/
theorem processDraft_distinct (cfg : Config) (now : Int) (st : List Article)
    (d : Draft) (h : distinctUrlKeys st) :
    distinctUrlKeys (processDraft cfg now st d).1 := by
  unfold processDraft
  unfold distinctUrlKeys at h ⊢
  split_ifs with h1 h2 h3
  · rw [updateFirst_map_field Article.urlKey _ _
      (fun a => (mergeUrl_fields now d a).2.1)]
    exact h
  · rw [updateFirst_map_field Article.urlKey _ _
      (fun a => (mergeContent_fields now d a).2.1)]
    exact h
  · rw [updateFirst_map_field Article.urlKey _ _
      (fun a => (mergeSem_fields cfg now d a).2.1)]
    exact h
  · rw [List.map_append, List.nodup_append]
    have huk : (enrich cfg (mkArticle cfg now st.length d)).urlKey = urlKey d.url := by
      rw [(enrich_fields cfg _).2.1]
      rfl
    refine ⟨h, by simp, ?_⟩
    intro x hx hx2
    simp only [List.map_cons, List.map_nil, List.mem_singleton] at hx2
    obtain ⟨a, ha, hae⟩ := List.mem_map.mp hx
    apply h1
    refine List.any_eq_true.mpr ⟨a, ha, ?_⟩
    unfold urlMatch
    rw [decide_eq_true_eq, hae, hx2, huk]

/-- Processing a batch preserves urlKey distinctness of the index. -/
theorem processList_distinct (cfg : Config) (now : Int) :
    ∀ (ds : List Draft) (st : List Article), distinctUrlKeys st →
      distinctUrlKeys (processList cfg now st ds).1 := by
  intro ds
  induction ds with
  | nil => exact fun st h => h
  | cons d rest ih =>
    intro st h
    exact ih _ (processDraft_distinct cfg now st d h)

/-- Processing against the empty index always accepts, with id 0. -/
theorem processDraft_nil (cfg : Config) (now : Int) (d : Draft) :
    processDraft cfg now [] d
      = ([enrich cfg (mkArticle cfg now 0 d)], Outcome.accepted) := by
  simp [processDraft]

/-- C1: for two drafts with the same normalized urlKey, exactly one article
is created — the first draft is accepted and the second merges by exact URL
into the first article's identity (id 0) — and processing any batch of
drafts preserves the invariant that no two indexed articles share a urlKey,
so in every reachable index urlKeys stay pairwise distinct. -/
theorem C1_urlKey_unique (cfg : Config) (now : Int) (d1 d2 : Draft)
    (h : urlKey d1.url = urlKey d2.url) :
    (processList cfg now [] [d1, d2]).2 = [Outcome.accepted, Outcome.mergedUrl] ∧
    (processList cfg now [] [d1, d2]).1.length = 1 ∧
    (∀ a ∈ (processList cfg now [] [d1, d2]).1,
      a.id = 0 ∧ a.urlKey = urlKey d1.url) ∧
    (∀ (st : List Article) (ds : List Draft), distinctUrlKeys st →
      distinctUrlKeys (processList cfg now st ds).1) := by
  have e : (enrich cfg (mkArticle cfg now 0 d1)).urlKey = urlKey d1.url := by
    rw [(enrich_fields cfg _).2.1]
    rfl
  have hA2 : urlMatch d2 (enrich cfg (mkArticle cfg now 0 d1)) = true := by
    unfold urlMatch
    rw [decide_eq_true_eq, e, h]
  have hstep2 : processDraft cfg now [enrich cfg (mkArticle cfg now 0 d1)] d2
      = ([mergeUrl now d2 (enrich cfg (mkArticle cfg now 0 d1))],
         Outcome.mergedUrl) := by
    simp [processDraft, updateFirst, hA2]
  have hrun : processList cfg now [] [d1, d2]
      = ([mergeUrl now d2 (enrich cfg (mkArticle cfg now 0 d1))],
         [Outcome.accepted, Outcome.mergedUrl]) := by
    simp only [processList, processDraft_nil, hstep2]
  rw [hrun]
  refine ⟨rfl, rfl, ?_, ?_⟩
  · intro a ha
    rw [List.mem_singleton] at ha
    subst ha
    constructor
    · rw [(mergeUrl_fields now d2 _).1, (enrich_fields cfg _).1]
      rfl
    · rw [(mergeUrl_fields now d2 _).2.1, e]
  · intro st ds hd
    exact processList_distinct cfg now ds st hd

/-- Witness for C1: two concrete drafts for the same URL produce one accept
followed by one URL merge and a single stored article. -/
theorem C1_witness :
    (processList (cfgC4 tLow) 0 [] [dU1, dU2]).2
      = [Outcome.accepted, Outcome.mergedUrl] ∧
    (processList (cfgC4 tLow) 0 [] [dU1, dU2]).1.length = 1 :=
  ⟨(C1_urlKey_unique (cfgC4 tLow) 0 dU1 dU2 (by decide)).1,
   (C1_urlKey_unique (cfgC4 tLow) 0 dU1 dU2 (by decide)).2.1⟩

/-- C2: two drafts with the same contentHash within the recency window but
different urlKeys merge into exactly one article, which retains the earliest
publishedAt of the merged drafts. -/
theorem C2_contentHash_merge (cfg : Config) (now : Int) (d1 d2 : Draft)
    (p1 p2 : Int)
    (hW : 0 ≤ cfg.window)
    (hurl : urlKey d1.url ≠ urlKey d2.url)
    (hhash : contentKey d1 = contentKey d2)
    (hp1 : d1.publishedAt = some p1) (hp2 : d2.publishedAt = some p2) :
    (processList cfg now [] [d1, d2]).2
      = [Outcome.accepted, Outcome.mergedContent] ∧
    (processList cfg now [] [d1, d2]).1.length = 1 ∧
    ∀ a ∈ (processList cfg now [] [d1, d2]).1,
      a.publishedAt = some (min p1 p2) := by
  have e : (enrich cfg (mkArticle cfg now 0 d1)).urlKey = urlKey d1.url := by
    rw [(enrich_fields cfg _).2.1]
    rfl
  have ec : (enrich cfg (mkArticle cfg now 0 d1)).contentHash = contentKey d1 := by
    rw [(enrich_fields cfg _).2.2.1]
    rfl
  have ecol : (enrich cfg (mkArticle cfg now 0 d1)).collectedAt = now := by
    rw [(enrich_fields cfg _).2.2.2.2.1]
    rfl
  have epub : (enrich cfg (mkArticle cfg now 0 d1)).publishedAt = some p1 := by
    rw [(enrich_fields cfg _).2.2.2.2.2]
    exact hp1
  have hu : urlMatch d2 (enrich cfg (mkArticle cfg now 0 d1)) = false := by
    unfold urlMatch
    rw [decide_eq_false_iff_not, e]
    exact hurl
  have hc : contentMatch cfg now d2 (enrich cfg (mkArticle cfg now 0 d1)) = true := by
    unfold contentMatch inWindow
    rw [ec, ecol, hhash]
    have hz : now - now ≤ cfg.window := by omega
    simp [hz, hW]
  have hstep2 : processDraft cfg now [enrich cfg (mkArticle cfg now 0 d1)] d2
      = ([mergeContent now d2 (enrich cfg (mkArticle cfg now 0 d1))],
         Outcome.mergedContent) := by
    simp [processDraft, updateFirst, hu, hc]
  have hrun : processList cfg now [] [d1, d2]
      = ([mergeContent now d2 (enrich cfg (mkArticle cfg now 0 d1))],
         [Outcome.accepted, Outcome.mergedContent]) := by
    simp only [processList, processDraft_nil, hstep2]
  rw [hrun]
  refine ⟨rfl, rfl, ?_⟩
  intro a ha
  rw [List.mem_singleton] at ha
  subst ha
  unfold mergeContent draftOrderKey Article.orderKey
  rw [hp2, epub, ecol]
  simp only [Option.getD_some]
  split_ifs with hcmp
  · rw [min_eq_right (le_of_lt hcmp)]
  · rw [min_eq_left (by omega)]

/-- Witness for C2: two concrete drafts with equal content, different URLs
and publishedAt 5 and 3 merge into one article with publishedAt 3. -/
theorem C2_witness :
    0 ≤ (cfgC4 tLow).window ∧
    ∀ a ∈ (processList (cfgC4 tLow) 0 [] [dW1, dW2]).1,
      a.publishedAt = some (min 5 3) :=
  ⟨by decide,
   (C2_contentHash_merge (cfgC4 tLow) 0 dW1 dW2 5 3 (by decide) (by decide)
     (by decide) rfl rfl).2.2⟩

/-- Membership in an updated index: each element is an old element or the
update of an old element. -/
theorem updateFirst_mem (p : Article → Bool) (f : Article → Article) :
    ∀ (st : List Article) (x : Article), x ∈ updateFirst p f st →
      x ∈ st ∨ ∃ a ∈ st, x = f a := by
  intro st
  induction st with
  | nil =>
    intro x hx
    exact absurd hx (by simp [updateFirst])
  | cons a rest ih =>
    intro x hx
    unfold updateFirst at hx
    by_cases hp : p a = true
    · rw [if_pos hp] at hx
      rcases List.mem_cons.mp hx with h | h
      · exact Or.inr ⟨a, List.mem_cons_self a rest, h⟩
      · exact Or.inl (List.mem_cons_of_mem a h)
    · rw [if_neg hp] at hx
      rcases List.mem_cons.mp hx with h | h
      · exact Or.inl (by rw [h]; exact List.mem_cons_self a rest)
      · rcases ih x h with h2 | ⟨b, hb, he⟩
        · exact Or.inl (List.mem_cons_of_mem a h2)
        · exact Or.inr ⟨b, List.mem_cons_of_mem a hb, he⟩

/-- A field value that the merge functions preserve persists in the index
through one dedup step: the step can only add values, never remove them. -/
theorem processDraft_field_mem {β : Type} (g : Article → β) (cfg : Config)
    (now : Int) (st : List Article) (d : Draft)
    (h1 : ∀ a, g (mergeUrl now d a) = g a)
    (h2 : ∀ a, g (mergeContent now d a) = g a)
    (h3 : ∀ a, g (mergeSem cfg now d a) = g a)
    (x : β) (hx : x ∈ st.map g) :
    x ∈ (processDraft cfg now st d).1.map g := by
  unfold processDraft
  split_ifs with c1 c2 c3
  · rw [updateFirst_map_field g _ _ h1]
    exact hx
  · rw [updateFirst_map_field g _ _ h2]
    exact hx
  · rw [updateFirst_map_field g _ _ h3]
    exact hx
  · rw [List.map_append]
    exact List.mem_append_left _ hx

/-- Elimination form of the semantic-duplicate signal. -/
theorem semMatch_elim (cfg : Config) (now : Int) (d : Draft) (a : Article)
    (h : semMatch cfg now d a = true) :
    ∃ v w, draftEmbedding cfg d = some v ∧ a.embedding = some w ∧
      simGe v w cfg.threshold = true ∧ inWindow cfg now a = true := by
  rcases hv : draftEmbedding cfg d with _ | v
  · rw [semMatch, hv] at h
    exact absurd h (by simp)
  rcases hw : a.embedding with _ | w
  · rw [semMatch, hv, hw] at h
    exact absurd h (by simp)
  rw [semMatch, hv, hw, Bool.and_eq_true] at h
  exact ⟨v, w, rfl, rfl, h.1, h.2⟩

/-- Introduction form of the semantic-duplicate signal. -/
theorem semMatch_intro (cfg : Config) (now : Int) (d : Draft) (a : Article)
    (v w : List Int) (hv : draftEmbedding cfg d = some v)
    (hw : a.embedding = some w)
    (hs : simGe v w cfg.threshold = true) (hin : inWindow cfg now a = true) :
    semMatch cfg now d a = true := by
  rw [semMatch, hv, hw, Bool.and_eq_true]
  exact ⟨hs, hin⟩

/-- An indexed duplicate witness for a draft persists through any dedup
step. -/
theorem rawMatch_persist (cfg : Config) (now : Int) (st : List Article)
    (d dp : Draft) (h : ∃ a ∈ st, rawMatch cfg d a) :
    ∃ a ∈ (processDraft cfg now st dp).1, rawMatch cfg d a := by
  obtain ⟨a, ha, hm⟩ := h
  rcases hm with hu | hc | ⟨v, w, hv, hw, hs⟩
  · have hmem : a.urlKey ∈ st.map Article.urlKey := List.mem_map.mpr ⟨a, ha, rfl⟩
    have h2 := processDraft_field_mem Article.urlKey cfg now st dp
      (fun a => (mergeUrl_fields now dp a).2.1)
      (fun a => (mergeContent_fields now dp a).2.1)
      (fun a => (mergeSem_fields cfg now dp a).2.1) a.urlKey hmem
    obtain ⟨b, hb, hbe⟩ := List.mem_map.mp h2
    exact ⟨b, hb, Or.inl (by rw [hbe, hu])⟩
  · have hmem : a.contentHash ∈ st.map Article.contentHash :=
      List.mem_map.mpr ⟨a, ha, rfl⟩
    have h2 := processDraft_field_mem Article.contentHash cfg now st dp
      (fun a => (mergeUrl_fields now dp a).2.2.1)
      (fun a => (mergeContent_fields now dp a).2.2.1)
      (fun a => (mergeSem_fields cfg now dp a).2.2.1) a.contentHash hmem
    obtain ⟨b, hb, hbe⟩ := List.mem_map.mp h2
    exact ⟨b, hb, Or.inr (Or.inl (by rw [hbe, hc]))⟩
  · have hmem : a.embedding ∈ st.map Article.embedding :=
      List.mem_map.mpr ⟨a, ha, rfl⟩
    have h2 := processDraft_field_mem Article.embedding cfg now st dp
      (fun a => (mergeUrl_fields now dp a).2.2.2.1)
      (fun a => (mergeContent_fields now dp a).2.2.2.1)
      (fun a => (mergeSem_fields cfg now dp a).2.2.2.1) a.embedding hmem
    obtain ⟨b, hb, hbe⟩ := List.mem_map.mp h2
    refine ⟨b, hb, Or.inr (Or.inr ⟨v, w, hv, ?_, hs⟩)⟩
    rw [hbe, hw]

/-- After a dedup step, the index holds a duplicate witness for the draft
just processed. -/
theorem processDraft_covers (cfg : Config) (now : Int) (st : List Article)
    (d : Draft) :
    ∃ a ∈ (processDraft cfg now st d).1, rawMatch cfg d a := by
  unfold processDraft
  split_ifs with c1 c2 c3
  · obtain ⟨a, ha, hm⟩ := List.any_eq_true.mp c1
    unfold urlMatch at hm
    rw [decide_eq_true_eq] at hm
    have hmem : a.urlKey ∈ st.map Article.urlKey := List.mem_map.mpr ⟨a, ha, rfl⟩
    rw [← updateFirst_map_field Article.urlKey (urlMatch d) (mergeUrl now d)
      (fun a => (mergeUrl_fields now d a).2.1) st] at hmem
    obtain ⟨b, hb, hbe⟩ := List.mem_map.mp hmem
    exact ⟨b, hb, Or.inl (by rw [hbe, hm])⟩
  · obtain ⟨a, ha, hm⟩ := List.any_eq_true.mp c2
    unfold contentMatch at hm
    rw [Bool.and_eq_true, decide_eq_true_eq] at hm
    have hmem : a.contentHash ∈ st.map Article.contentHash :=
      List.mem_map.mpr ⟨a, ha, rfl⟩
    rw [← updateFirst_map_field Article.contentHash _ (mergeContent now d)
      (fun a => (mergeContent_fields now d a).2.2.1) st] at hmem
    obtain ⟨b, hb, hbe⟩ := List.mem_map.mp hmem
    exact ⟨b, hb, Or.inr (Or.inl (by rw [hbe, hm.1]))⟩
  · obtain ⟨a, ha, hm⟩ := List.any_eq_true.mp c3
    obtain ⟨v, w, hv, hw, hs, hin⟩ := semMatch_elim cfg now d a hm
    have hmem : a.embedding ∈ st.map Article.embedding :=
      List.mem_map.mpr ⟨a, ha, rfl⟩
    rw [← updateFirst_map_field Article.embedding _ (mergeSem cfg now d)
      (fun a => (mergeSem_fields cfg now d a).2.2.2.1) st] at hmem
    obtain ⟨b, hb, hbe⟩ := List.mem_map.mp hmem
    refine ⟨b, hb, Or.inr (Or.inr ⟨v, w, hv, ?_, hs⟩)⟩
    rw [hbe, hw]
  · refine ⟨enrich cfg (mkArticle cfg now st.length d),
      List.mem_append_right _ (by simp), Or.inl ?_⟩
    rw [(enrich_fields cfg _).2.1]
    rfl

/-- A dedup step at time now keeps every indexed article recent at any
reference time t with t - now ≤ window. -/
theorem processDraft_recent (cfg : Config) (t now : Int) (st : List Article)
    (d : Draft) (hnow : t - now ≤ cfg.window) (h : recent cfg t st) :
    recent cfg t (processDraft cfg now st d).1 := by
  unfold processDraft
  split_ifs with c1 c2 c3 <;> intro x hx
  · rcases updateFirst_mem _ _ st x hx with hm | ⟨a, ha, he⟩
    · exact h x hm
    · rcases (mergeUrl_fields now d a).2.2.2.2.2 with hc | hc
      · rw [he, hc]
        exact h a ha
      · rw [he, hc]
        omega
  · rcases updateFirst_mem _ _ st x hx with hm | ⟨a, ha, he⟩
    · exact h x hm
    · rw [he, (mergeContent_fields now d a).2.2.2.2]
      exact h a ha
  · rcases updateFirst_mem _ _ st x hx with hm | ⟨a, ha, he⟩
    · exact h x hm
    · rw [he, (mergeSem_fields cfg now d a).2.2.2.2]
      exact h a ha
  · rcases List.mem_append.mp hx with hm | hm
    · exact h x hm
    · rw [List.mem_singleton] at hm
      rw [hm, (enrich_fields cfg _).2.2.2.2.1]
      show t - now ≤ cfg.window
      exact hnow

/-- A draft with a recent duplicate witness in the index is merged, leaving
the article count unchanged. -/
theorem processDraft_merges (cfg : Config) (now : Int) (st : List Article)
    (d : Draft)
    (hm0 : ∃ a ∈ st, rawMatch cfg d a ∧ now - a.collectedAt ≤ cfg.window) :
    (processDraft cfg now st d).2 ≠ Outcome.accepted ∧
    (processDraft cfg now st d).1.length = st.length := by
  obtain ⟨a, ha, hm, hwin⟩ := hm0
  unfold processDraft
  split_ifs with c1 c2 c3
  · exact ⟨by simp, updateFirst_length _ _ st⟩
  · exact ⟨by simp, updateFirst_length _ _ st⟩
  · exact ⟨by simp, updateFirst_length _ _ st⟩
  · exfalso
    rcases hm with hu | hc | ⟨v, w, hv, hw, hs⟩
    · apply c1
      refine List.any_eq_true.mpr ⟨a, ha, ?_⟩
      unfold urlMatch
      rw [decide_eq_true_eq]
      exact hu
    · apply c2
      refine List.any_eq_true.mpr ⟨a, ha, ?_⟩
      unfold contentMatch inWindow
      rw [Bool.and_eq_true, decide_eq_true_eq, decide_eq_true_eq]
      exact ⟨hc, hwin⟩
    · apply c3
      refine List.any_eq_true.mpr ⟨a, ha, ?_⟩
      refine semMatch_intro cfg now d a v w hv hw hs ?_
      unfold inWindow
      rw [decide_eq_true_eq]
      exact hwin

/-- Witness persistence through a whole batch. -/
theorem rawMatch_persist_list (cfg : Config) (now : Int) (d : Draft) :
    ∀ (ds : List Draft) (st : List Article), (∃ a ∈ st, rawMatch cfg d a) →
      ∃ a ∈ (processList cfg now st ds).1, rawMatch cfg d a := by
  intro ds
  induction ds with
  | nil => exact fun st h => h
  | cons dp rest ih =>
    intro st h
    exact ih _ (rawMatch_persist cfg now st d dp h)

/-- Every draft of a batch has a duplicate witness in the index once the
batch has been processed. -/
theorem processList_covers (cfg : Config) (now : Int) :
    ∀ (ds : List Draft) (st : List Article) (d : Draft), d ∈ ds →
      ∃ a ∈ (processList cfg now st ds).1, rawMatch cfg d a := by
  intro ds
  induction ds with
  | nil =>
    intro st d h
    exact absurd h (List.not_mem_nil d)
  | cons dp rest ih =>
    intro st d h
    rcases List.mem_cons.mp h with he | hm
    · subst he
      exact rawMatch_persist_list cfg now d rest _ (processDraft_covers cfg now st d)
    · exact ih _ d hm

/-- Batch processing preserves recency of the whole index. -/
theorem processList_recent (cfg : Config) (t now : Int)
    (hnow : t - now ≤ cfg.window) :
    ∀ (ds : List Draft) (st : List Article), recent cfg t st →
      recent cfg t (processList cfg now st ds).1 := by
  intro ds
  induction ds with
  | nil => exact fun st h => h
  | cons dp rest ih =>
    intro st h
    exact ih _ (processDraft_recent cfg t now st dp hnow h)

/-- A batch all of whose drafts already have recent duplicate witnesses
produces zero accepted outcomes and leaves the index size unchanged. -/
theorem processList_merged (cfg : Config) (now : Int) (hW : 0 ≤ cfg.window) :
    ∀ (ds : List Draft) (st : List Article),
      (∀ d ∈ ds, ∃ a ∈ st, rawMatch cfg d a) → recent cfg now st →
      countAccepted (processList cfg now st ds).2 = 0 ∧
      (processList cfg now st ds).1.length = st.length := by
  intro ds
  induction ds with
  | nil => exact fun st _ _ => ⟨rfl, rfl⟩
  | cons dp rest ih =>
    intro st hcov hrec
    have hw1 : ∃ a ∈ st, rawMatch cfg dp a ∧ now - a.collectedAt ≤ cfg.window := by
      obtain ⟨a, ha, hm⟩ := hcov dp (List.mem_cons_self dp rest)
      exact ⟨a, ha, hm, hrec a ha⟩
    obtain ⟨hne, hlen⟩ := processDraft_merges cfg now st dp hw1
    have hcov2 : ∀ d ∈ rest, ∃ a ∈ (processDraft cfg now st dp).1, rawMatch cfg d a := by
      intro d hd
      exact rawMatch_persist cfg now st d dp (hcov d (List.mem_cons_of_mem dp hd))
    have hrec2 : recent cfg now (processDraft cfg now st dp).1 :=
      processDraft_recent cfg now now st dp (by omega) hrec
    obtain ⟨ha2, hl2⟩ := ih (processDraft cfg now st dp).1 hcov2 hrec2
    constructor
    · show countAccepted ((processDraft cfg now st dp).2
        :: (processList cfg now (processDraft cfg now st dp).1 rest).2) = 0
      have hdec : decide ((processDraft cfg now st dp).2 = Outcome.accepted) = false := by
        rw [decide_eq_false_iff_not]
        exact hne
      unfold countAccepted at ha2 ⊢
      rw [List.countP_cons, hdec]
      simpa using ha2
    · show (processList cfg now (processDraft cfg now st dp).1 rest).1.length = st.length
      rw [hl2, hlen]

/-- Witness persistence through the remaining sources of a run. -/
theorem rawMatch_persist_sources (cfg : Config) (now : Int) (d : Draft) :
    ∀ (up : List (String × List Draft)) (st : List Article),
      (∃ a ∈ st, rawMatch cfg d a) →
      ∃ a ∈ (runSources cfg now st up).1, rawMatch cfg d a := by
  intro up
  induction up with
  | nil => exact fun st h => h
  | cons p rest ih =>
    obtain ⟨psid, pds⟩ := p
    intro st h
    exact ih _ (rawMatch_persist_list cfg now d pds st h)

/-- After a full run, every upstream draft has a duplicate witness in the
index. -/
theorem runSources_covers (cfg : Config) (now : Int) :
    ∀ (up : List (String × List Draft)) (st : List Article) (sid : String)
      (ds : List Draft) (d : Draft), (sid, ds) ∈ up → d ∈ ds →
      ∃ a ∈ (runSources cfg now st up).1, rawMatch cfg d a := by
  intro up
  induction up with
  | nil =>
    intro st sid ds d h
    exact absurd h (List.not_mem_nil _)
  | cons p rest ih =>
    obtain ⟨psid, pds⟩ := p
    intro st sid ds d hp hd
    rcases List.mem_cons.mp hp with he | hm
    · have hsd : ds = pds := congrArg Prod.snd he
      subst hsd
      exact rawMatch_persist_sources cfg now d rest _
        (processList_covers cfg now ds st d hd)
    · exact ih _ sid ds d hm hd

/-- A full run preserves recency of the whole index. -/
theorem runSources_recent (cfg : Config) (t now : Int)
    (hnow : t - now ≤ cfg.window) :
    ∀ (up : List (String × List Draft)) (st : List Article), recent cfg t st →
      recent cfg t (runSources cfg now st up).1 := by
  intro up
  induction up with
  | nil => exact fun st h => h
  | cons p rest ih =>
    obtain ⟨psid, pds⟩ := p
    intro st h
    exact ih _ (processList_recent cfg t now hnow pds st h)

/-- A run over an upstream all of whose drafts already have recent duplicate
witnesses reports accepted = 0 for every source and leaves the index size
unchanged. -/
theorem runSources_merged (cfg : Config) (now : Int) (hW : 0 ≤ cfg.window) :
    ∀ (up : List (String × List Draft)) (st : List Article),
      (∀ sid ds, (sid, ds) ∈ up → ∀ d ∈ ds, ∃ a ∈ st, rawMatch cfg d a) →
      recent cfg now st →
      (∀ e ∈ (runSources cfg now st up).2, e.2.accepted = 0) ∧
      (runSources cfg now st up).1.length = st.length := by
  intro up
  induction up with
  | nil =>
    intro st _ _
    exact ⟨fun e he => absurd he (List.not_mem_nil e), rfl⟩
  | cons p rest ih =>
    obtain ⟨psid, pds⟩ := p
    intro st hcov hrec
    obtain ⟨hacc1, hlen1⟩ := processList_merged cfg now hW pds st
      (hcov psid pds (List.mem_cons_self _ _)) hrec
    have hcov2 : ∀ sid ds, (sid, ds) ∈ rest → ∀ d ∈ ds,
        ∃ a ∈ (processList cfg now st pds).1, rawMatch cfg d a := by
      intro sid ds hm d hd
      exact rawMatch_persist_list cfg now d pds st
        (hcov sid ds (List.mem_cons_of_mem _ hm) d hd)
    have hrec2 : recent cfg now (processList cfg now st pds).1 :=
      processList_recent cfg now now (by omega) pds st hrec
    obtain ⟨haccr, hlenr⟩ := ih (processList cfg now st pds).1 hcov2 hrec2
    constructor
    · intro e he
      have he2 : e ∈ (psid, (runSource cfg now st pds).2)
          :: (runSources cfg now (runSource cfg now st pds).1 rest).2 := he
      rcases List.mem_cons.mp he2 with hh | hh
      · rw [hh]
        show (runSource cfg now st pds).2.accepted = 0
        exact hacc1
      · exact haccr e hh
    · show (runSources cfg now (processList cfg now st pds).1 rest).1.length = st.length
      rw [hlenr, hlen1]

/-- C5: collection is idempotent — running a cycle twice over an unchanged
upstream, with the second run still inside the recency window of the first,
creates zero new articles in the second run (the index size is unchanged)
and the second RunReport reports accepted = 0 for every source. -/
theorem C5_idempotent (cfg : Config) (t1 t2 : Int)
    (up : List (String × List Draft))
    (h1 : t1 ≤ t2) (h2 : t2 - t1 ≤ cfg.window) :
    (∀ e ∈ (runCollection cfg t2 (runCollection cfg t1 [] up).1 up).2.perSource,
      e.2.accepted = 0) ∧
    (runCollection cfg t2 (runCollection cfg t1 [] up).1 up).1.length
      = (runCollection cfg t1 [] up).1.length := by
  have hW : 0 ≤ cfg.window := by omega
  have hcov : ∀ sid ds, (sid, ds) ∈ up → ∀ d ∈ ds,
      ∃ a ∈ (runSources cfg t1 [] up).1, rawMatch cfg d a := by
    intro sid ds hm d hd
    exact runSources_covers cfg t1 up [] sid ds d hm hd
  have hrec : recent cfg t2 (runSources cfg t1 [] up).1 :=
    runSources_recent cfg t2 t1 (by omega) up []
      (fun a ha => absurd ha (List.not_mem_nil a))
  obtain ⟨ha, hl⟩ := runSources_merged cfg t2 hW up (runSources cfg t1 [] up).1 hcov hrec
  exact ⟨fun e he => ha e he, hl⟩

/-- Witness for C5 at a concrete one-source upstream: an immediate re-run
reports accepted = 0. -/
theorem C5_witness :
    (0 : Int) ≤ 0 ∧ (0 : Int) - 0 ≤ (cfgC4 tLow).window ∧
    ∀ e ∈ (runCollection (cfgC4 tLow) 0
        (runCollection (cfgC4 tLow) 0 [] [(("s1"), [dU1])]).1
        [(("s1"), [dU1])]).2.perSource,
      e.2.accepted = 0 :=
  ⟨le_refl 0, by decide,
   (C5_idempotent (cfgC4 tLow) 0 0 [(("s1"), [dU1])] (le_refl 0) (by decide)).1⟩

/-- Erasing the enrichment outputs commutes with a URL merge. -/
theorem mergeUrl_eraseAi (now : Int) (d : Draft) (a : Article) :
    eraseAi (mergeUrl now d a) = mergeUrl now d (eraseAi a) := by
  unfold mergeUrl
  by_cases h : a.orderKey < draftOrderKey now d
  · rw [if_pos h, if_pos (show (eraseAi a).orderKey < draftOrderKey now d from h)]
    rfl
  · rw [if_neg h, if_neg (show ¬ (eraseAi a).orderKey < draftOrderKey now d from h)]

/-- Erasing the enrichment outputs commutes with a content merge. -/
theorem mergeContent_eraseAi (now : Int) (d : Draft) (a : Article) :
    eraseAi (mergeContent now d a) = mergeContent now d (eraseAi a) := rfl

/-- Erasing the enrichment outputs commutes with a semantic merge, across
the two configurations that differ only in the AI capability. -/
theorem mergeSem_eraseAi (cfg : Config) (f : String → AiResult) (now : Int)
    (d : Draft) (a : Article) :
    eraseAi (mergeSem { cfg with ai := some f } now d a)
      = mergeSem { cfg with ai := none } now d (eraseAi a) := rfl

/-- updateFirst commutes with a per-element transformation that respects the
predicate and the update function. -/
theorem updateFirst_map_comm (g : Article → Article) (p p2 : Article → Bool)
    (f f2 : Article → Article)
    (hp : ∀ a, p2 (g a) = p a) (hf : ∀ a, g (f a) = f2 (g a)) :
    ∀ st : List Article,
      (updateFirst p f st).map g = updateFirst p2 f2 (st.map g) := by
  intro st
  induction st with
  | nil => rfl
  | cons a rest ih =>
    simp only [List.map_cons]
    unfold updateFirst
    by_cases h : p a = true
    · rw [if_pos h, if_pos (show p2 (g a) = true by rw [hp]; exact h)]
      simp only [List.map_cons]
      rw [hf]
    · rw [if_neg h, if_neg (show ¬ p2 (g a) = true by rw [hp]; exact h)]
      simp only [List.map_cons]
      rw [ih]

/-- Unfolding equation of processList on a cons cell. -/
theorem processList_cons (cfg : Config) (now : Int) (st : List Article)
    (d : Draft) (rest : List Draft) :
    processList cfg now st (d :: rest)
      = ((processList cfg now (processDraft cfg now st d).1 rest).1,
         (processDraft cfg now st d).2
           :: (processList cfg now (processDraft cfg now st d).1 rest).2) := rfl

/-- One dedup step behaves identically with and without the AI capability,
modulo erasure of the enrichment outputs: same outcome, and the two indexes
agree after erasure. -/
theorem processDraft_eraseAi (cfg : Config) (f : String → AiResult) (now : Int)
    (st : List Article) (d : Draft) :
    (processDraft { cfg with ai := none } now (st.map eraseAi) d).1
      = ((processDraft { cfg with ai := some f } now st d).1).map eraseAi ∧
    (processDraft { cfg with ai := none } now (st.map eraseAi) d).2
      = (processDraft { cfg with ai := some f } now st d).2 := by
  have hfun1 : (urlMatch d ∘ eraseAi) = urlMatch d := funext (fun a => rfl)
  have hfun2 : (contentMatch { cfg with ai := none } now d ∘ eraseAi)
      = contentMatch { cfg with ai := some f } now d := funext (fun a => rfl)
  have hfun3 : (semMatch { cfg with ai := none } now d ∘ eraseAi)
      = semMatch { cfg with ai := some f } now d := funext (fun a => rfl)
  have hany1 : (st.map eraseAi).any (urlMatch d) = st.any (urlMatch d) := by
    rw [List.any_map, hfun1]
  have hany2 : (st.map eraseAi).any (contentMatch { cfg with ai := none } now d)
      = st.any (contentMatch { cfg with ai := some f } now d) := by
    rw [List.any_map, hfun2]
  have hany3 : (st.map eraseAi).any (semMatch { cfg with ai := none } now d)
      = st.any (semMatch { cfg with ai := some f } now d) := by
    rw [List.any_map, hfun3]
  unfold processDraft
  rw [hany1, hany2, hany3]
  split_ifs with c1 c2 c3
  · refine ⟨?_, rfl⟩
    exact (updateFirst_map_comm eraseAi (urlMatch d) (urlMatch d)
      (mergeUrl now d) (mergeUrl now d) (fun a => rfl)
      (mergeUrl_eraseAi now d) st).symm
  · refine ⟨?_, rfl⟩
    exact (updateFirst_map_comm eraseAi
      (contentMatch { cfg with ai := some f } now d)
      (contentMatch { cfg with ai := none } now d)
      (mergeContent now d) (mergeContent now d) (fun a => rfl)
      (mergeContent_eraseAi now d) st).symm
  · refine ⟨?_, rfl⟩
    exact (updateFirst_map_comm eraseAi
      (semMatch { cfg with ai := some f } now d)
      (semMatch { cfg with ai := none } now d)
      (mergeSem { cfg with ai := some f } now d)
      (mergeSem { cfg with ai := none } now d) (fun a => rfl)
      (mergeSem_eraseAi cfg f now d) st).symm
  · refine ⟨?_, rfl⟩
    rw [List.map_append, List.length_map]
    rfl

/-- Batch processing behaves identically with and without the AI capability,
modulo erasure of the enrichment outputs. -/
theorem processList_eraseAi (cfg : Config) (f : String → AiResult) (now : Int) :
    ∀ (ds : List Draft) (st : List Article),
      (processList { cfg with ai := none } now (st.map eraseAi) ds).1
        = ((processList { cfg with ai := some f } now st ds).1).map eraseAi ∧
      (processList { cfg with ai := none } now (st.map eraseAi) ds).2
        = (processList { cfg with ai := some f } now st ds).2 := by
  intro ds
  induction ds with
  | nil => exact fun st => ⟨rfl, rfl⟩
  | cons d rest ih =>
    intro st
    obtain ⟨h1, h2⟩ := processDraft_eraseAi cfg f now st d
    simp only [processList_cons]
    rw [h1, h2]
    obtain ⟨i1, i2⟩ := ih (processDraft { cfg with ai := some f } now st d).1
    rw [i1, i2]
    exact ⟨rfl, rfl⟩

/-- One source run behaves identically with and without the AI capability,
modulo erasure: identical counters, erasure-equal indexes. -/
theorem runSource_eraseAi (cfg : Config) (f : String → AiResult) (now : Int)
    (st : List Article) (ds : List Draft) :
    (runSource { cfg with ai := none } now (st.map eraseAi) ds).1
      = ((runSource { cfg with ai := some f } now st ds).1).map eraseAi ∧
    (runSource { cfg with ai := none } now (st.map eraseAi) ds).2
      = (runSource { cfg with ai := some f } now st ds).2 := by
  obtain ⟨h1, h2⟩ := processList_eraseAi cfg f now ds st
  constructor
  · exact h1
  · show SourceCounts.mk ds.length
        (countAccepted (processList { cfg with ai := none } now (st.map eraseAi) ds).2)
        ((processList { cfg with ai := none } now (st.map eraseAi) ds).2.length
          - countAccepted (processList { cfg with ai := none } now (st.map eraseAi) ds).2)
        0
      = SourceCounts.mk ds.length
        (countAccepted (processList { cfg with ai := some f } now st ds).2)
        ((processList { cfg with ai := some f } now st ds).2.length
          - countAccepted (processList { cfg with ai := some f } now st ds).2)
        0
    rw [h2]

/-- Unfolding equation of runSources on a cons cell. -/
theorem runSources_cons (cfg : Config) (now : Int) (st : List Article)
    (sid : String) (ds : List Draft) (rest : List (String × List Draft)) :
    runSources cfg now st ((sid, ds) :: rest)
      = ((runSources cfg now (runSource cfg now st ds).1 rest).1,
         (sid, (runSource cfg now st ds).2)
           :: (runSources cfg now (runSource cfg now st ds).1 rest).2) := rfl

/-- A whole run behaves identically with and without the AI capability,
modulo erasure of the enrichment outputs. -/
theorem runSources_eraseAi (cfg : Config) (f : String → AiResult) (now : Int) :
    ∀ (up : List (String × List Draft)) (st : List Article),
      (runSources { cfg with ai := none } now (st.map eraseAi) up).1
        = ((runSources { cfg with ai := some f } now st up).1).map eraseAi ∧
      (runSources { cfg with ai := none } now (st.map eraseAi) up).2
        = (runSources { cfg with ai := some f } now st up).2 := by
  intro up
  induction up with
  | nil => exact fun st => ⟨rfl, rfl⟩
  | cons p rest ih =>
    obtain ⟨sid, ds⟩ := p
    intro st
    obtain ⟨h1, h2⟩ := runSource_eraseAi cfg f now st ds
    simp only [runSources_cons]
    rw [h1, h2]
    obtain ⟨i1, i2⟩ := ih (runSource { cfg with ai := some f } now st ds).1
    rw [i1, i2]
    exact ⟨rfl, rfl⟩

/-- C6: AI-enrichment unavailability never blocks or drops an article — a run
with the enrichment capability absent produces the very same RunReport (in
particular the same accepted totals per source) as a run with it present
over the same upstream, the two final indexes agree article for article
after erasing the enrichment outputs (the articles differ only in the AI
fields and the quality-filter mark, which the enrichment stage owns), and
every article of the unenriched run is stored with aiProcessed = false and
isFiltered = false, so it is still published. -/
theorem C6_enrichment_unavailable (cfg : Config) (f : String → AiResult)
    (now : Int) (up : List (String × List Draft)) :
    (runCollection { cfg with ai := none } now [] up).2
      = (runCollection { cfg with ai := some f } now [] up).2 ∧
    (runCollection { cfg with ai := none } now [] up).1
      = ((runCollection { cfg with ai := some f } now [] up).1).map eraseAi ∧
    ∀ a ∈ (runCollection { cfg with ai := none } now [] up).1,
      a.aiProcessed = false ∧ a.isFiltered = false := by
  obtain ⟨h1, h2⟩ := runSources_eraseAi cfg f now up []
  refine ⟨?_, ?_, ?_⟩
  · show RunReport.mk now now (runSources { cfg with ai := none } now [] up).2
      = RunReport.mk now now (runSources { cfg with ai := some f } now [] up).2
    have h2e : (runSources { cfg with ai := none } now [] up).2
        = (runSources { cfg with ai := some f } now [] up).2 := h2
    rw [h2e]
  · exact h1
  · intro a ha
    have ha2 : a ∈ ((runSources { cfg with ai := some f } now [] up).1).map eraseAi := by
      have h1e : (runSources { cfg with ai := none } now [] up).1
          = ((runSources { cfg with ai := some f } now [] up).1).map eraseAi := h1
      rw [← h1e]
      exact ha
    obtain ⟨b, hb, hbe⟩ := List.mem_map.mp ha2
    rw [← hbe]
    exact ⟨rfl, rfl⟩

/-- Witness for C6 at a concrete one-source upstream and a concrete scoring
capability: the two RunReports coincide. -/
theorem C6_witness :
    (runCollection { cfgC4 tLow with ai := none } 0 [] [(("s1"), [dU1])]).2
      = (runCollection
          { cfgC4 tLow with ai := some (fun _ => AiResult.mk 1 ("finance") []) }
          0 [] [(("s1"), [dU1])]).2 :=
  (C6_enrichment_unavailable (cfgC4 tLow) (fun _ => AiResult.mk 1 ("finance") [])
    0 [(("s1"), [dU1])]).1

end NewsSpec
